import Mathlib

/-!
Verification development for the queensac link-checker.

The definitions below are a shallow embedding of the Rust sources:

* `src/git/pr_generator.rs` — `replace_line_content`, `apply_fixes`,
  `create_fix_pr` (file edits and the pull-request pipeline);
* `src/link_checker/checker.rs` — `check_link`, `is_trivial_redirect`,
  `is_github_url`, `handle_github_404`;
* `src/git/link_extractor.rs` — `find_link_in_content` (URL regex and
  trailing-punctuation trim);
* `src/git/file_tracker.rs` and `src/git/repo.rs` (together with the
  historical `rook/src/git` revision kept in the repository) — commit
  history search, rename tracking, and the 404 resolution loop;
* `src/link_checker/sse.rs` — the `buffer_unordered(10)` orchestration.

Text is modelled as `List Char` (Rust `&str` contents), git paths as
`List String` (path components, matching `std::path::Path` component
semantics), and effectful operations as explicit state / trace passing.
-/

namespace Queensac

/-! ## Rust string primitives -/

/-- Rust `str::contains(pat)` at a single position: `pat` occurs in `s`
starting at index `i`. -/
def occursAt (s pat : List Char) (i : Nat) : Prop := pat.isPrefixOf (s.drop i)

instance (s pat : List Char) (i : Nat) : Decidable (occursAt s pat i) := by
  unfold occursAt; infer_instance

/-- Rust `str::contains(pat)`: some position of `s` starts an occurrence of
`pat` (the empty pattern is contained in every string). -/
def rustContains (s pat : List Char) : Bool :=
  (List.range (s.length + 1)).any (fun i => pat.isPrefixOf (s.drop i))

/-- The scan of Rust `str::replace` for a non-empty pattern: move left to
right, replacing each leftmost non-overlapping occurrence of `pat` by `rep`.
The first argument is fuel; every step consumes at least one character, so
fuel `s.length` is always sufficient (`replaceGo_fuel`). -/
def replaceGo (pat rep : List Char) : Nat → List Char → List Char
  | _, [] => []
  | 0, s => s
  | fuel + 1, c :: rest =>
    if pat.isPrefixOf (c :: rest) then
      rep ++ replaceGo pat rep fuel (rest.drop (pat.length - 1))
    else
      c :: replaceGo pat rep fuel rest

/-- Rust `str::replace(pat, rep)`: replaces every non-overlapping occurrence
of `pat`, leftmost first.  An empty pattern matches at every character
boundary, so the replacement is inserted at every boundary. -/
def rustReplace (s pat rep : List Char) : List Char :=
  match pat with
  | [] => rep ++ (s.map (fun c => c :: rep)).flatten
  | _ :: _ => replaceGo pat rep s.length s

/-- Split a list at every occurrence of the separator character (the
separator is dropped; `n` separators produce `n + 1` pieces). -/
def splitOnChar (sep : Char) : List Char → List (List Char)
  | [] => [[]]
  | c :: rest =>
    let r := splitOnChar sep rest
    if c = sep then [] :: r
    else
      match r with
      | [] => [[c]]
      | piece :: pieces => (c :: piece) :: pieces

/-- Rust `str::strip_suffix('\r')` folded with identity: remove at most one
trailing carriage return. -/
def stripTrailingCR (l : List Char) : List Char :=
  match l.getLast? with
  | some '\r' => l.dropLast
  | _ => l

/-- Rust `str::lines()`: split on `'\n'`, drop the final empty piece produced
by a trailing newline (so `""` has no lines), and strip one trailing `'\r'`
from each line (`"\r\n"` terminators). -/
def rustLines (s : List Char) : List (List Char) :=
  let pieces := splitOnChar '\n' s
  let pieces := if pieces.getLast? = some [] then pieces.dropLast else pieces
  pieces.map stripTrailingCR

/-- Rust `[T]::join(sep)`: concatenate the pieces with `sep` between
consecutive pieces. -/
def rustJoin (sep : List Char) : List (List Char) → List Char
  | [] => []
  | [s] => s
  | s :: rest => s ++ sep ++ rustJoin sep rest

/-- Rust `[&str]::join("\n")`. -/
def joinLines (lines : List (List Char)) : List Char :=
  rustJoin ['\n'] lines

/-! ## `PullRequestGenerator::replace_line_content`
(`src/git/pr_generator.rs`) -/

/-- The error type of the pull-request generator (`PrError`), restricted to
the variants the embedded operations produce. -/
inductive PrError where
  | file (msg : List Char)
  | config (msg : List Char)
  deriving DecidableEq, Repr

/-- Decimal rendering of a line number, used in error messages. -/
def natChars (n : Nat) : List Char := (toString n).toList

instance {ε α} [DecidableEq ε] [DecidableEq α] : DecidableEq (Except ε α)
  | .error a, .error b =>
    if h : a = b then isTrue (by rw [h]) else isFalse (by intro he; cases he; exact h rfl)
  | .error _, .ok _ => isFalse (by intro h; cases h)
  | .ok _, .error _ => isFalse (by intro h; cases h)
  | .ok a, .ok b =>
    if h : a = b then isTrue (by rw [h]) else isFalse (by intro he; cases he; exact h rfl)

/-- Embedding of `PullRequestGenerator::replace_line_content(content, line_number,
old_url, new_url)`: split into lines, validate the 1-based line number,
require `old_url` on that line, replace it there with Rust `str::replace`
(all occurrences), and re-join the lines with `'\n'`. -/
def replaceLineContent (content : List Char) (lineNumber : Nat)
    (oldUrl newUrl : List Char) : Except PrError (List Char) :=
  let lines := rustLines content
  if lineNumber = 0 ∨ lines.length < lineNumber then
    .error (.file ("Invalid line number: ".toList ++ natChars lineNumber))
  else
    let lineIndex := lineNumber - 1
    let oldLine := lines.getD lineIndex []
    if ¬ rustContains oldLine oldUrl then
      .error (.file (("Old URL not found in line ".toList) ++ natChars lineNumber))
    else
      let newLine := rustReplace oldLine oldUrl newUrl
      .ok (joinLines (lines.set lineIndex newLine))

/-! ## `is_trivial_redirect` (`src/link_checker/checker.rs`)

`url::Url::parse` is an external library; a parsed URL is modelled by its
components as observed through `scheme()`, `host()`, `port()`, `path()` and
`query()`.  A parse result is `Option UrlParts` (`None` = parse failure). -/

/-- The components of a parsed `url::Url` that `is_trivial_redirect`
inspects. -/
structure UrlParts where
  scheme : String
  host : Option String
  port : Option Nat
  path : List Char
  query : Option String
  deriving DecidableEq, Repr

/-- Rust `str::trim_end_matches('/')`: remove every trailing `'/'`. -/
def trimEndSlashes (s : List Char) : List Char :=
  ((s.reverse.dropWhile (fun c => c = '/'))).reverse

/-- Embedding of `is_trivial_redirect(original, redirect)`: both URLs must parse; scheme,
host, port and query must agree; and the redirect path must equal the
original path with all trailing slashes trimmed, or that plus one `'/'`. -/
def isTrivialRedirect (orig redirect : Option UrlParts) : Bool :=
  match orig with
  | none => false
  | some o =>
    match redirect with
    | none => false
    | some r =>
      if o.scheme ≠ r.scheme ∨ o.host ≠ r.host ∨ o.port ≠ r.port then false
      else if o.query ≠ r.query then false
      else
        let origPath := trimEndSlashes o.path
        decide (r.path = origPath ++ ['/']) || decide (r.path = origPath)

/-! ## `LinkChecker::check_link` (`src/link_checker/checker.rs`)

The HTTP transport is external: each GET attempt either yields a response
(status code and optional `Location` header) or a transport error with a
message.  The sequence of outcomes the network would produce is a function
`Nat → AttemptOutcome` (attempt `i` is the `i`-th send).  `is_github_url`
and `handle_github_404` touch the network and the filesystem, so the loop
receives their values (`isGh`, `gh404`) and the `Url::parse` results
(`parse`) as parameters. -/

/-- The result of one `client.get(url).send().await`. -/
inductive AttemptOutcome where
  | response (status : Nat) (location : Option String)
  | transportError (msg : String)
  deriving DecidableEq, Repr

/-- Embedding of `LinkCheckResult` (`src/link_checker/checker.rs`). -/
inductive LinkCheckResult where
  | Valid : LinkCheckResult
  | Redirect (target : String)
  | Invalid (reason : String)
  | GitHubFileMoved (newPath : String)
  deriving DecidableEq, Repr

/-- Embedding of `StatusCode::is_success()`: 2xx. -/
def isSuccess (status : Nat) : Bool := 200 ≤ status ∧ status < 300

/-- Embedding of `StatusCode::is_redirection()`: 3xx. -/
def isRedirection (status : Nat) : Bool := 300 ≤ status ∧ status < 400

/-- The `while attempts > 0` loop of `check_link`.  `attempts` counts down
from 3; `idx` is the index of the next network attempt; `sleeps` counts the
executed 1-second `tokio::time::sleep` calls.  Every branch of a received
response returns; a transport error returns `Request error: …` when
`attempts == 1` and otherwise decrements, sleeps and retries; the code after
the loop returns `Max retries exceeded`. -/
def checkLinkLoop (parse : String → Option UrlParts) (isGh : Bool)
    (gh404 : LinkCheckResult) (url : String) (net : Nat → AttemptOutcome) :
    Nat → Nat → Nat → LinkCheckResult × Nat
  | 0, _, sleeps => (.Invalid "Max retries exceeded", sleeps)
  | a + 1, idx, sleeps =>
    match net idx with
    | .response status location =>
      if isSuccess status then (.Valid, sleeps)
      else if isRedirection status then
        match location with
        | some loc =>
          if isTrivialRedirect (parse url) (parse loc) then (.Valid, sleeps)
          else (.Redirect loc, sleeps)
        | none => (.Valid, sleeps)
      else if status = 404 ∧ isGh then (gh404, sleeps)
      else (.Invalid ("HTTP status code: " ++ toString status), sleeps)
    | .transportError e =>
      if a = 0 then (.Invalid ("Request error: " ++ e), sleeps)
      else checkLinkLoop parse isGh gh404 url net a (idx + 1) (sleeps + 1)

/-- Embedding of `check_link(url)`: run the retry loop with `attempts = 3`.  Returns the
classification together with the number of 1-second sleeps performed. -/
def checkLink (parse : String → Option UrlParts) (isGh : Bool)
    (gh404 : LinkCheckResult) (url : String) (net : Nat → AttemptOutcome) :
    LinkCheckResult × Nat :=
  checkLinkLoop parse isGh gh404 url net 3 0 0

/-! ## `find_link_in_content` (`src/git/link_extractor.rs`)

`REGEX_DOMAIN` and `REGEX_IP_ADDRESS` are fixed patterns; their matching is
implemented below with the leftmost-first, greedy-with-backtracking
semantics of the `regex` crate, specialised to these two patterns. -/

/-- Strip a literal: `some` of the remainder when `lit` starts `s`. -/
def stripLit (lit s : List Char) : Option (List Char) :=
  if lit.isPrefixOf s then some (s.drop lit.length) else none

/-- Characters of the class `[-a-zA-Z0-9@:%._+~#=]` (the domain part of
`REGEX_DOMAIN`). -/
def isC1 (c : Char) : Bool :=
  c.isAlpha || c.isDigit ||
    (c = '-' || c = '@' || c = ':' || c = '%' || c = '.' || c = '_' ||
     c = '+' || c = '~' || c = '#' || c = '=')

/-- Characters of the class `[a-zA-Z0-9()]` (the TLD part of
`REGEX_DOMAIN`). -/
def isC2 (c : Char) : Bool := c.isAlpha || c.isDigit || c = '(' || c = ')'

/-- Characters of the class `[-a-zA-Z0-9()@:%_+.~#?&/=]` (the tail part of
`REGEX_DOMAIN`). -/
def isC3 (c : Char) : Bool :=
  c.isAlpha || c.isDigit ||
    (c = '-' || c = '(' || c = ')' || c = '@' || c = ':' || c = '%' ||
     c = '_' || c = '+' || c = '.' || c = '~' || c = '#' || c = '?' ||
     c = '&' || c = '/' || c = '=')

/-- Regex word characters (for `\b`). -/
def isWordChar (c : Char) : Bool := c.isAlpha || c.isDigit || c = '_'

/-- Length of the longest prefix of `s` inside the class `p`. -/
def classRun (p : Char → Bool) (s : List Char) : Nat := (s.takeWhile p).length

/-- A `\b` word boundary between an optional previous and next character
(`none` = string edge, which counts as a non-word character). -/
def wordBoundary (prev next : Option Char) : Bool :=
  (prev.elim false isWordChar) != (next.elim false isWordChar)

/-- Match `[-a-zA-Z0-9@:%._+~#=]{1,256}\.[a-zA-Z0-9()]{1,6}\b(C3*)` at the
start of `s`, greedy with backtracking: longest domain run first, then
longest TLD run satisfying the word boundary, then the maximal tail run.
Returns the number of characters consumed. -/
def matchCore (s : List Char) : Option Nat :=
  let run1 := min 256 (classRun isC1 s)
  (List.range run1).findSome? fun i =>
    let k := run1 - i
    match s.drop k with
    | '.' :: _ =>
      let s2 := s.drop (k + 1)
      let run2 := min 6 (classRun isC2 s2)
      (List.range run2).findSome? fun j =>
        let m := run2 - j
        if wordBoundary (s2.drop (m - 1)).head? (s2.drop m).head? then
          some (k + 1 + m + classRun isC3 (s2.drop m))
        else none
    | _ => none

/-- Match `REGEX_DOMAIN` at the start of `s`: literal `http`, optional `s`,
literal `://`, optional `www.` (preferred, with fallback), then
`matchCore`.  Returns the total match length. -/
def matchUrlAt (s : List Char) : Option Nat :=
  match stripLit "http".toList s with
  | none => none
  | some s1 =>
    let (schemeLen, s2) :=
      match s1 with
      | 's' :: r => (5, r)
      | r => (4, r)
    match stripLit "://".toList s2 with
    | none => none
    | some s3 =>
      let base := schemeLen + 3
      match stripLit "www.".toList s3 with
      | some s4 =>
        match matchCore s4 with
        | some len => some (base + 4 + len)
        | none => (matchCore s3).map (fun len => base + len)
      | none => (matchCore s3).map (fun len => base + len)

/-- Embedding of `Regex::find_iter` for `REGEX_DOMAIN` on one line: scan start positions
left to right, take the first match, continue after its end.  The fuel is
the remaining length (every step consumes at least one character). -/
def urlMatchesAux : Nat → List Char → List (List Char)
  | 0, _ => []
  | _, [] => []
  | fuel + 1, s =>
    match matchUrlAt s with
    | some len => s.take len :: urlMatchesAux fuel (s.drop (max len 1))
    | none => urlMatchesAux fuel (s.drop 1)

/-- All `REGEX_DOMAIN` matches of a line, in order. -/
def urlMatches (line : List Char) : List (List Char) :=
  urlMatchesAux line.length line

/-- One `\d{1,3}\.` octet of `REGEX_IP_ADDRESS`: a digit run of length 1–3
followed by a literal dot (the run is maximal, so no backtracking arises). -/
def octetDot (s : List Char) : Option (List Char) :=
  let r := classRun (fun c => c.isDigit) s
  if 1 ≤ r ∧ r ≤ 3 then
    match s.drop r with
    | '.' :: rest => some rest
    | _ => none
  else none

/-- The host alternative of `REGEX_IP_ADDRESS` at the start of `s`:
`localhost` or `(?:\d{1,3}\.){3}\d{1,3}` (the optional port group cannot
fail, so it does not affect `is_match`). -/
def ipHostAt (s : List Char) : Bool :=
  (stripLit "localhost".toList s).isSome ||
    (match octetDot s with
     | none => false
     | some s1 =>
       match octetDot s1 with
       | none => false
       | some s2 =>
         match octetDot s2 with
         | none => false
         | some s3 => 1 ≤ classRun (fun c => c.isDigit) s3)

/-- Embedding of `REGEX_IP_ADDRESS` at the start of `s`: `https?://` then the host
alternative. -/
def ipAt (s : List Char) : Bool :=
  match stripLit "http".toList s with
  | none => false
  | some s1 =>
    let s2 :=
      match s1 with
      | 's' :: r => r
      | r => r
    match stripLit "://".toList s2 with
    | none => false
    | some s3 => ipHostAt s3

/-- Embedding of `REGEX_IP_ADDRESS.is_match(s)`: the pattern matches at some position. -/
def isIpAddressMatch (s : List Char) : Bool :=
  (List.range (s.length + 1)).any (fun i => ipAt (s.drop i))

/-- Embedding of `LinkInfo` (`src/git/link_extractor.rs`): equality and hashing use the
URL only. -/
structure LinkInfo where
  url : List Char
  filePath : List Char
  lineNumber : Nat
  deriving DecidableEq, Repr

/-- The trailing characters trimmed from a URL match. -/
def trimChars : List Char := [')', '>', '.', ',', ';']

/-- Rust `str::trim_end_matches(&[…])`: repeatedly remove a trailing
character belonging to `set`. -/
def rustTrimEndMatches (set s : List Char) : List Char :=
  (s.reverse.dropWhile (fun c => set.contains c)).reverse

/-- The per-match extraction step of `find_link_in_content`:
`mat.as_str().trim_end_matches(&[')', '>', '.', ',', ';'][..])`. -/
def extractUrl (mat : List Char) : List Char := rustTrimEndMatches trimChars mat

/-- Embedding of `HashSet<LinkInfo>::insert`: keep the existing entry when one with the
same URL is present. -/
def insertLink (links : List LinkInfo) (l : LinkInfo) : List LinkInfo :=
  if links.any (fun x => x.url = l.url) then links else links ++ [l]

/-- Embedding of `find_link_in_content(content, file_path)`: scan each line with
`REGEX_DOMAIN`, skip matches that `REGEX_IP_ADDRESS` matches, trim trailing
punctuation, and collect into the URL-keyed set. -/
def findLinkInContent (content : List Char) (filePath : List Char) : List LinkInfo :=
  ((rustLines content).enum.foldl (fun acc lp =>
    (urlMatches lp.2).foldl (fun acc2 mat =>
      if isIpAddressMatch mat then acc2
      else insertLink acc2 ⟨extractUrl mat, filePath, lp.1 + 1⟩) acc) [])

/-! ## `PullRequestGenerator` (`src/git/pr_generator.rs`)

File I/O, git operations, the push and the GitHub REST call are effects; a
run returns the trace of effects it performed together with its result.
The filesystem of the checked-out workspace is a partial map from paths to
contents. -/

/-- Embedding of `FileChange` (`src/git/pr_generator.rs`). -/
structure FileChange where
  filePath : List Char
  oldContent : List Char
  newContent : List Char
  lineNumber : Nat
  deriving DecidableEq, Repr

/-- The observable side effects of `create_fix_pr`. -/
inductive PrEffect where
  | createBranch (name : String)
  | checkoutBranch (name : String)
  | writeFile (path content : List Char)
  | addFile (path : List Char)
  | commitChanges (message : List Char)
  | pushBranch (remote branch : String)
  | openPullRequest (head : String)
  deriving DecidableEq, Repr

/-- Whether an effect is the commit step. -/
def isCommitEffect : PrEffect → Bool
  | .commitChanges _ => true
  | _ => false

/-- Whether an effect is the push step. -/
def isPushEffect : PrEffect → Bool
  | .pushBranch _ _ => true
  | _ => false

/-- Whether an effect is the pull-request API call. -/
def isOpenPrEffect : PrEffect → Bool
  | .openPullRequest _ => true
  | _ => false

/-- A workspace filesystem. -/
def Workspace : Type := List Char → Option (List Char)

/-- Embedding of `apply_fixes(fixes)`: for each fix, skip it when its file does not
exist; otherwise read the file, rewrite the line with
`replace_line_content`, write the file back and record the change.  Errors
abort the remaining fixes. -/
def applyFixes (fs : Workspace) :
    List FileChange → List PrEffect × Except PrError (List FileChange × Workspace)
  | [] => ([], .ok ([], fs))
  | fix :: rest =>
    match fs fix.filePath with
    | none => applyFixes fs rest
    | some current =>
      match replaceLineContent current fix.lineNumber fix.oldContent fix.newContent with
      | .error e => ([], .error e)
      | .ok newContent =>
        let fs2 : Workspace := fun p => if p = fix.filePath then some newContent else fs p
        match applyFixes fs2 rest with
        | (effs, .error e) => (.writeFile fix.filePath newContent :: effs, .error e)
        | (effs, .ok (changes, fsOut)) =>
          (.writeFile fix.filePath newContent :: effs,
           .ok (⟨fix.filePath, current, newContent, fix.lineNumber⟩ :: changes, fsOut))

/-- Embedding of `create_commit_message(changes)`. -/
def createCommitMessage (changes : List FileChange) : List Char :=
  "fix: Update broken links\n\n".toList ++
    (changes.map (fun ch =>
      "- Update link in ".toList ++ ch.filePath ++ [':'] ++
        natChars ch.lineNumber ++ ['\n'])).flatten ++
    "\nThis PR was automatically generated to fix broken links in the repository.".toList

/-- Embedding of `create_fix_pr(fixes)`: create and check out the feature branch, apply
the fixes, and — only when at least one change was applied — stage each
changed file, commit, push, and open the pull request.  `branchName` is the
generated `queensac-<timestamp>` name and `prUrl` the URL the forge API
returns. -/
def createFixPr (fs : Workspace) (fixes : List FileChange)
    (branchName prUrl : String) : List PrEffect × Except PrError String :=
  let eff0 : List PrEffect := [.createBranch branchName, .checkoutBranch branchName]
  match applyFixes fs fixes with
  | (effs, .error e) => (eff0 ++ effs, .error e)
  | (effs, .ok (changes, _)) =>
    if changes.isEmpty then
      (eff0 ++ effs, .error (.config "No changes to create PR".toList))
    else
      (eff0 ++ effs ++ changes.map (fun ch => PrEffect.addFile ch.filePath) ++
         [.commitChanges (createCommitMessage changes),
          .pushBranch "origin" branchName,
          .openPullRequest branchName],
       .ok prUrl)

/-! ## Git history model (`src/git/file_tracker.rs`, `src/git/repo.rs`,
and the `rook/src/git` revision)

A repository is modelled by its revwalk sequence from HEAD (each commit
with its parent count and the deltas of the parent-to-commit tree diff)
and the set of paths present in the HEAD tree.  Paths are component lists
(`std::path::Path` components). -/

/-- Git path: list of components. -/
abbrev GitPath := List String

/-- Embedding of `git2::Delta` status, restricted to what the embedded code inspects. -/
inductive DeltaStatus where
  | added
  | deleted
  | modified
  | renamed
  | copied
  deriving DecidableEq, Repr

/-- One delta of a parent-to-commit tree diff. -/
structure Delta where
  oldPath : GitPath
  newPath : GitPath
  status : DeltaStatus
  deriving DecidableEq, Repr

/-- A commit as the history walk observes it. -/
structure GitCommit where
  parentCount : Nat
  deltas : List Delta
  deriving DecidableEq, Repr

/-- A repository: commits in revwalk order from HEAD, and the HEAD tree. -/
structure RepoModel where
  commits : List GitCommit
  headPaths : List GitPath
  deriving DecidableEq, Repr

/-- Render a path as the string `git2` reports (`/`-separated). -/
def renderPath (p : GitPath) : String := String.intercalate "/" p

/-- Parent directory of a path, rendered with a trailing slash (the
directory branch of `find_last_commit_id`). -/
def renderDir (p : GitPath) : String := renderPath p.dropLast ++ "/"

/-- Parse a path string back into components (`Path::new`). -/
def pathComponents (s : String) : GitPath :=
  (splitOnChar '/' s.toList).map (fun l => ⟨l⟩)

/-- The delta scan of `find_last_commit_id` (`src/git/file_tracker.rs`)
inside one commit: the first delta whose new path equals the target, or
whose old path has the target as a component prefix, decides the result.
`none` = no delta of this commit matched; `some r` = the function returns
`CommitSearchResult` with `renamed_path = r`. -/
def scanDeltas (target : GitPath) : List Delta → Option (Option String)
  | [] => none
  | d :: ds =>
    if d.newPath = target then some none
    else if target.isPrefixOf d.oldPath then
      if d.oldPath = target ∧ d.status = .renamed then
        some (some (renderPath d.newPath))
      else if d.status = .renamed ∧ d.newPath ≠ [] then
        some (some (renderDir d.newPath))
      else some none
    else scanDeltas target ds

/-- Whether `find_last_commit_id` stops at this commit, and with which
`renamed_path`: merge and initial commits (`parent_count ≠ 1`) are
skipped. -/
def commitHits (target : GitPath) (c : GitCommit) : Option (Option String) :=
  if c.parentCount = 1 then scanDeltas target c.deltas else none

/-- Embedding of `find_last_commit_id(target)` (`src/git/file_tracker.rs`): walk the
commits from HEAD and return the first hit, or `File not found`. -/
def findLastCommitId (target : GitPath) : List GitCommit → Except String (GitCommit × Option String)
  | [] => .error "File not found"
  | c :: rest =>
    match commitHits target c with
    | some r => .ok (c, r)
    | none => findLastCommitId target rest

/-- Whether the `rook` revision of `find_last_commit_id`
(`rook/src/git/file_tracker.rs`) stops at this commit: a single-parent
commit one of whose deltas has the target as new path. -/
def rookCommitHits (target : GitPath) (c : GitCommit) : Bool :=
  c.parentCount = 1 && c.deltas.any (fun d => d.newPath = target)

/-- Embedding of `find_last_commit_id(target)` of the `rook` revision: the variant the
`find_current_location` loop calls (it returns the bare commit). -/
def findLastCommitIdRook (target : GitPath) : List GitCommit → Except String GitCommit
  | [] => .error "File not found"
  | c :: rest =>
    if rookCommitHits target c then .ok c else findLastCommitIdRook target rest

/-- Embedding of `track_file_rename_in_commit(repo, commit, target)`
(`rook/src/git/file_tracker.rs`): in a single-parent commit, the first
delta with status `Renamed` whose old path equals the target yields the new
path. -/
def trackFileRenameInCommit (c : GitCommit) (target : GitPath) : Option GitPath :=
  if c.parentCount ≠ 1 then none
  else (c.deltas.find? (fun d => decide (d.status = .renamed ∧ d.oldPath = target))).map
    (fun d => d.newPath)

/-- Embedding of `file_exists_in_repo(repo, path)`: membership in the HEAD tree. -/
def fileExistsInRepo (m : RepoModel) (p : GitPath) : Bool := decide (p ∈ m.headPaths)

/-- The `loop` of `RepoManager::find_current_location`
(`src/git/repo.rs:108-134`): while the current path is absent from HEAD,
find the last commit touching it (failure ⇒ `Ok(None)`) and follow the
rename recorded there (no rename ⇒ `Ok(None)`).  The loop in the source has
no bound; the fuel makes the embedding total, with `none` meaning the fuel
was exhausted. -/
def findCurrentLocationLoop (m : RepoModel) : Nat → GitPath → Option (Option GitPath)
  | 0, _ => none
  | fuel + 1, p =>
    if fileExistsInRepo m p then some (some p)
    else
      match findLastCommitIdRook p m.commits with
      | .error _ => some none
      | .ok c =>
        match trackFileRenameInCommit c p with
        | some np => findCurrentLocationLoop m fuel np
        | none => some none

/-- Representation invariant of real parent-to-commit tree diffs: a
renamed delta's new path exists only in the child tree while a renamed
delta's old path exists only in the parent tree, so within one commit no
path is both. -/
def GitConsistent (m : RepoModel) : Prop :=
  ∀ c ∈ m.commits, ∀ d1 ∈ c.deltas, ∀ d2 ∈ c.deltas,
    d1.status = .renamed → d2.status = .renamed → d1.newPath ≠ d2.oldPath

instance (m : RepoModel) : Decidable (GitConsistent m) := by
  unfold GitConsistent; infer_instance

/-- The suffix of the commit list starting at the first commit on which the
rook `find_last_commit_id` stops (used as a termination measure: each step
of the resolution loop moves the first hit strictly towards HEAD). -/
def rookHitSuffix (p : GitPath) : List GitCommit → Option (List GitCommit)
  | [] => none
  | c :: rest => if rookCommitHits p c then some (c :: rest) else rookHitSuffix p rest

/-- Length of the first-hit suffix (0 when there is no hit). -/
def rookHitMeasure (m : RepoModel) (p : GitPath) : Nat :=
  match rookHitSuffix p m.commits with
  | none => 0
  | some s => s.length

/-! ## `GitHubUrl` and the 404 handler (`rook/src/git/url.rs`,
`src/link_checker/checker.rs`) -/

/-- Embedding of `GitHubUrl` (`rook/src/git/url.rs`; the struct the current tree
imports). -/
structure GitHubUrl where
  owner : String
  repo : String
  branch : Option String
  filePath : Option String
  deriving DecidableEq, Repr

/-- First path segment and the remainder (segments cannot contain `/`). -/
def takeSeg (s : List Char) : List Char × List Char :=
  (s.takeWhile (fun c => c ≠ '/'), s.dropWhile (fun c => c ≠ '/'))

/-- Embedding of `GitHubUrl::parse`, the anchored regex
`^https?://(?:www\.)?github\.com/([^/]+)/([^/]+)(?:/(?:tree|blob)/([^/]+)(?:/(.+))?)?$`:
scheme, optional `www.`, literal `github.com/`, non-empty owner and repo
segments, then optionally `/tree/` or `/blob/`, a non-empty branch segment
and an optional non-empty file path (which `.` forbids to span a newline). -/
def githubUrlParse (s : List Char) : Option GitHubUrl :=
  match stripLit "http".toList s with
  | none => none
  | some s1 =>
    let s2 :=
      match s1 with
      | 's' :: r => r
      | r => r
    match stripLit "://".toList s2 with
    | none => none
    | some s3 =>
      let s4 :=
        match stripLit "www.".toList s3 with
        | some r => r
        | none => s3
      match stripLit "github.com/".toList s4 with
      | none => none
      | some s5 =>
        let (owner, r1) := takeSeg s5
        if owner = [] then none
        else
          match r1 with
          | [] => none
          | _ :: r2 =>
            let (repo, r3) := takeSeg r2
            if repo = [] then none
            else
              match r3 with
              | [] => some ⟨⟨owner⟩, ⟨repo⟩, none, none⟩
              | _ :: r4 =>
                let afterKind :=
                  match stripLit "tree/".toList r4 with
                  | some r5 => some r5
                  | none => stripLit "blob/".toList r4
                match afterKind with
                | none => none
                | some r5 =>
                  let (branch, r6) := takeSeg r5
                  if branch = [] then none
                  else
                    match r6 with
                    | [] => some ⟨⟨owner⟩, ⟨repo⟩, some ⟨branch⟩, none⟩
                    | _ :: r7 =>
                      if r7 = [] ∨ r7.contains '\n' then none
                      else some ⟨⟨owner⟩, ⟨repo⟩, some ⟨branch⟩, some ⟨r7⟩⟩

/-- Embedding of `Url::parse(url).host_str()` restricted to `http`/`https` URLs without
userinfo: the characters between `://` and the first `/`, `:`, `?` or `#`
(`none` when empty or the scheme prefix is absent). -/
def urlHostStr (s : List Char) : Option (List Char) :=
  match stripLit "http".toList s with
  | none => none
  | some s1 =>
    let s2 :=
      match s1 with
      | 's' :: r => r
      | r => r
    match stripLit "://".toList s2 with
    | none => none
    | some s3 =>
      let h := s3.takeWhile (fun c => c ≠ '/' && c ≠ ':' && c ≠ '?' && c ≠ '#')
      if h = [] then none else some h

/-- Embedding of `is_github_url(url)` (`src/link_checker/checker.rs`): the host is
`github.com` or ends with `.github.com`. -/
def isGithubUrl (s : List Char) : Bool :=
  match urlHostStr s with
  | some h => decide (h = "github.com".toList) || ".github.com".toList.isSuffixOf h
  | none => false

/-- Embedding of `RepoManager::find_current_location(github_url)` with explicit fuel for
the unbounded loop: without a file path in the URL it fails with
`No file path in URL`; otherwise it runs the resolution loop. -/
def findCurrentLocationE (m : RepoModel) (g : GitHubUrl) (fuel : Nat) :
    Option (Except String (Option GitPath)) :=
  match g.filePath with
  | none => some (.error "No file path in URL")
  | some fp => (findCurrentLocationLoop m fuel (pathComponents fp)).map .ok

/-- Embedding of `handle_github_404(url)` (`src/link_checker/checker.rs`): parse the URL
as a `GitHubUrl` (failure ⇒ `Invalid GitHub URL format`), clone the
repository (`clone` is the outcome of `RepoManager::from_github_url`;
failure ⇒ `Error cloning repository`), then resolve the file location
(`Ok(Some)` ⇒ `GitHubFileMoved`, `Ok(None)` ⇒ `File not found in
repository`, `Err` ⇒ `Error finding file location`).  `none` = the
resolution loop outran the fuel. -/
def handleGithub404 (clone : Except String RepoModel) (fuel : Nat)
    (url : List Char) : Option LinkCheckResult :=
  match githubUrlParse url with
  | none => some (.Invalid ("Invalid GitHub URL format: " ++ ⟨url⟩))
  | some parsed =>
    match clone with
    | .error e => some (.Invalid ("Error cloning repository: " ++ e))
    | .ok m =>
      match findCurrentLocationE m parsed fuel with
      | none => none
      | some (.ok (some p)) => some (.GitHubFileMoved (renderPath p))
      | some (.ok none) => some (.Invalid ("File not found in repository: " ++ ⟨url⟩))
      | some (.error e) => some (.Invalid ("Error finding file location: " ++ e))

/-! ## `stream_link_checks` orchestration (`src/link_checker/sse.rs`)

`stream::iter(links).map(probe).buffer_unordered(10)` keeps at most 10
probe futures in its pool and polls a new one from the stream only while
the pool holds fewer than 10.  The executor behaviour is modelled as a
transition system: a `start` step moves the next pending URL into the
in-flight pool and is enabled only below the bound; a `finish` step retires
an in-flight probe. -/

/-- State of the bounded orchestration. -/
structure OrchState where
  pending : List String
  inFlight : List String
  finished : List String
  deriving DecidableEq, Repr

/-- The concurrency bound of `buffer_unordered(10)`. -/
def probeBound : Nat := 10

/-- Transitions of the `buffer_unordered(10)` pool. -/
inductive OrchStep : OrchState → OrchState → Prop
  | start (u : String) (pending inFlight finished : List String) :
      inFlight.length < probeBound →
      OrchStep ⟨u :: pending, inFlight, finished⟩ ⟨pending, u :: inFlight, finished⟩
  | finish (u : String) (pending pre post finished : List String) :
      OrchStep ⟨pending, pre ++ u :: post, finished⟩ ⟨pending, pre ++ post, u :: finished⟩

/-- The initial orchestration state for a link set. -/
def orchInit (links : List String) : OrchState := ⟨links, [], []⟩

/-- States reachable during one orchestration run. -/
inductive OrchReachable (links : List String) : OrchState → Prop
  | init : OrchReachable links (orchInit links)
  | step {s t : OrchState} : OrchReachable links s → OrchStep s t → OrchReachable links t

/-! ### Lemmas about the string primitives -/

theorem replaceGo_nil (pat rep : List Char) (f : Nat) : replaceGo pat rep f [] = [] := by
  cases f <;> rfl

theorem replaceGo_fuel (pat rep : List Char) :
    ∀ f g s, s.length ≤ f → s.length ≤ g →
      replaceGo pat rep f s = replaceGo pat rep g s := by
  intro f
  induction f with
  | zero =>
    intro g s hf _
    have : s = [] := List.eq_nil_of_length_eq_zero (Nat.le_zero.mp hf)
    subst this
    rw [replaceGo_nil, replaceGo_nil]
  | succ f ih =>
    intro g s hf hg
    match s, g with
    | [], _ => rw [replaceGo_nil, replaceGo_nil]
    | c :: rest, 0 => simp at hg
    | c :: rest, g + 1 =>
      simp only [replaceGo]
      by_cases h : pat.isPrefixOf (c :: rest)
      · simp only [if_pos h]
        have hlen : (rest.drop (pat.length - 1)).length ≤ rest.length := by
          simp [List.length_drop]
        have h1 : (rest.drop (pat.length - 1)).length ≤ f :=
          le_trans hlen (by simpa using Nat.le_of_succ_le_succ hf)
        have h2 : (rest.drop (pat.length - 1)).length ≤ g :=
          le_trans hlen (by simpa using Nat.le_of_succ_le_succ hg)
        rw [ih _ _ h1 h2]
      · simp only [if_neg h]
        have h1 : rest.length ≤ f := by simpa using Nat.le_of_succ_le_succ hf
        have h2 : rest.length ≤ g := by simpa using Nat.le_of_succ_le_succ hg
        rw [ih _ _ h1 h2]

theorem isPrefixOf_iff {l₁ l₂ : List Char} : l₁.isPrefixOf l₂ = true ↔ l₁ <+: l₂ :=
  List.isPrefixOf_iff_prefix

theorem take_isPre (n : Nat) (l : List Char) : l.take n <+: l :=
  List.take_prefix n l

theorem isPrefixOf_append_of_le {l x : List Char} (t : List Char)
    (h : l.length ≤ x.length) : l.isPrefixOf (x ++ t) = l.isPrefixOf x := by
  cases hxt : l.isPrefixOf (x ++ t) with
  | false =>
    cases hx : l.isPrefixOf x with
    | false => rfl
    | true =>
      exfalso
      have hpre : l <+: x ++ t :=
        (isPrefixOf_iff.mp hx).trans (List.prefix_append x t)
      rw [isPrefixOf_iff.mpr hpre] at hxt
      cases hxt
  | true =>
    have hpre : l <+: x ++ t := isPrefixOf_iff.mp hxt
    have heq : l = (x ++ t).take l.length := List.prefix_iff_eq_take.mp hpre
    rw [List.take_append_of_le_length h] at heq
    have hx : l <+: x := by rw [heq]; exact take_isPre _ _
    exact (isPrefixOf_iff.mpr hx).symm

/-- Embedding of `seg` placed before an occurrence of `old` creates no earlier occurrence:
inside `seg ++ old`, the first occurrence of `old` is the final one. -/
def GoodSeg (old seg : List Char) : Prop :=
  ∀ j, j < seg.length → ¬ old.isPrefixOf ((seg ++ old).drop j)

instance (old seg : List Char) : Decidable (GoodSeg old seg) := by
  unfold GoodSeg; infer_instance

theorem rustReplace_step (old rep : List Char) (ho : old ≠ []) :
    ∀ s t, GoodSeg old s →
      rustReplace (s ++ old ++ t) old rep = s ++ rep ++ rustReplace t old rep := by
  obtain ⟨o, os, rfl⟩ : ∃ o os, old = o :: os := by
    cases old with
    | nil => exact absurd rfl ho
    | cons o os => exact ⟨o, os, rfl⟩
  intro s
  induction s with
  | nil =>
    intro t _
    show replaceGo (o :: os) rep (o :: (os ++ t)).length (o :: (os ++ t))
      = [] ++ rep ++ rustReplace t (o :: os) rep
    have hlen : (o :: (os ++ t)).length = (os ++ t).length + 1 := rfl
    rw [hlen]
    simp only [replaceGo]
    have hpre : (o :: os).isPrefixOf (o :: (os ++ t)) = true := by
      rw [← List.cons_append]
      exact isPrefixOf_iff.mpr (List.prefix_append _ _)
    rw [if_pos hpre]
    have hdrop : (os ++ t).drop ((o :: os).length - 1) = t := by
      simp only [List.length_cons, Nat.add_sub_cancel]
      exact List.drop_left os t
    rw [hdrop, replaceGo_fuel (o :: os) rep _ t.length t (by simp) (le_refl _)]
    rfl
  | cons c s ih =>
    intro t hg
    have h0 := hg 0 (by simp)
    rw [List.drop_zero] at h0
    have hb : (o :: os).isPrefixOf ((c :: s) ++ (o :: os)) = false := by
      cases hx : (o :: os).isPrefixOf ((c :: s) ++ (o :: os)) with
      | false => rfl
      | true => exact absurd hx h0
    have hnot : (o :: os).isPrefixOf (c :: ((s ++ (o :: os)) ++ t)) = false := by
      have hsplit : (c :: ((s ++ (o :: os)) ++ t)) = ((c :: s) ++ (o :: os)) ++ t := by simp
      rw [hsplit,
        isPrefixOf_append_of_le t (by simp only [List.length_cons, List.length_append]; omega),
        hb]
    have hg' : GoodSeg (o :: os) s := by
      intro j hj
      have := hg (j + 1) (by simpa using Nat.succ_lt_succ hj)
      simpa [List.cons_append] using this
    show replaceGo (o :: os) rep (c :: ((s ++ (o :: os)) ++ t)).length
      (c :: ((s ++ (o :: os)) ++ t)) = (c :: s) ++ rep ++ rustReplace t (o :: os) rep
    have hlen : (c :: ((s ++ (o :: os)) ++ t)).length = ((s ++ (o :: os)) ++ t).length + 1 :=
      rfl
    rw [hlen]
    simp only [replaceGo]
    rw [if_neg (by rw [hnot]; simp)]
    have hrec : replaceGo (o :: os) rep ((s ++ (o :: os)) ++ t).length
        ((s ++ (o :: os)) ++ t) = s ++ rep ++ rustReplace t (o :: os) rep := ih t hg'
    rw [hrec]
    simp

theorem rustReplace_of_no_occurrence (old rep : List Char) (ho : old ≠ []) :
    ∀ s, (∀ i, old.isPrefixOf (s.drop i) = false) → rustReplace s old rep = s := by
  obtain ⟨o, os, rfl⟩ : ∃ o os, old = o :: os := by
    cases old with
    | nil => exact absurd rfl ho
    | cons o os => exact ⟨o, os, rfl⟩
  intro s
  induction s with
  | nil => intro _; rfl
  | cons c rest ih =>
    intro h
    show replaceGo (o :: os) rep (c :: rest).length (c :: rest) = c :: rest
    have hlen : (c :: rest).length = rest.length + 1 := rfl
    rw [hlen]
    simp only [replaceGo]
    rw [if_neg (by have h0 := h 0; rw [List.drop_zero] at h0; rw [h0]; simp)]
    have : replaceGo (o :: os) rep rest.length rest = rest := ih (fun i => by
      have := h (i + 1)
      simpa using this)
    rw [this]

theorem rustContains_eq_false_iff {s pat : List Char} (hp : pat ≠ []) :
    rustContains s pat = false ↔ ∀ i, pat.isPrefixOf (s.drop i) = false := by
  obtain ⟨p, ps, rfl⟩ : ∃ p ps, pat = p :: ps := by
    cases pat with
    | nil => exact absurd rfl hp
    | cons p ps => exact ⟨p, ps, rfl⟩
  unfold rustContains
  rw [List.any_eq_false]
  constructor
  · intro h i
    by_cases hi : i < s.length + 1
    · have := h i (List.mem_range.mpr hi)
      revert this
      cases (p :: ps).isPrefixOf (s.drop i) <;> simp
    · have hnil : s.drop i = [] := List.drop_eq_nil_of_le (by omega)
      rw [hnil]
      rfl
  · intro h i _
    rw [h i]
    simp

theorem rustContains_of_prefix_drop {s pat : List Char} (i : Nat) (hi : i ≤ s.length)
    (h : pat.isPrefixOf (s.drop i) = true) : rustContains s pat = true := by
  unfold rustContains
  rw [List.any_eq_true]
  exact ⟨i, List.mem_range.mpr (by omega), h⟩

theorem rustJoin_cons (sep s : List Char) (rest : List (List Char)) (h : rest ≠ []) :
    rustJoin sep (s :: rest) = s ++ sep ++ rustJoin sep rest := by
  cases rest with
  | nil => exact absurd rfl h
  | cons a as => rfl

theorem rustReplace_join (old rep last : List Char) (ho : old ≠ [])
    (hlast : rustContains last old = false) :
    ∀ init, (∀ seg ∈ init, GoodSeg old seg) →
      rustReplace (rustJoin old (init ++ [last])) old rep = rustJoin rep (init ++ [last]) := by
  intro init
  induction init with
  | nil =>
    intro _
    show rustReplace (rustJoin old [last]) old rep = rustJoin rep [last]
    have hj : ∀ sep : List Char, rustJoin sep [last] = last := fun _ => rfl
    rw [hj, hj]
    exact rustReplace_of_no_occurrence old rep ho last
      ((rustContains_eq_false_iff ho).mp hlast)
  | cons s init ih =>
    intro hgood
    have h1 : rustJoin old ((s :: init) ++ [last]) = s ++ old ++ rustJoin old (init ++ [last]) := by
      rw [List.cons_append]
      exact rustJoin_cons old s (init ++ [last]) (by simp)
    have h2 : rustJoin rep ((s :: init) ++ [last]) = s ++ rep ++ rustJoin rep (init ++ [last]) := by
      rw [List.cons_append]
      exact rustJoin_cons rep s (init ++ [last]) (by simp)
    rw [h1, h2, rustReplace_step old rep ho s _ (hgood s (by simp)),
      ih (fun seg hseg => hgood seg (by simp [hseg]))]

theorem replaceLineContent_eq (content old rep : List Char) (n : Nat)
    (h1 : ¬ (n = 0 ∨ (rustLines content).length < n))
    (h2 : rustContains ((rustLines content).getD (n - 1) []) old = true) :
    replaceLineContent content n old rep
      = .ok (joinLines ((rustLines content).set (n - 1)
          (rustReplace ((rustLines content).getD (n - 1) []) old rep))) := by
  unfold replaceLineContent
  rw [if_neg h1, if_neg (by rw [h2]; simp)]

theorem getD_set_ne (L : List (List Char)) (k : Nat) (x : List Char) (i : Nat)
    (h : i ≠ k) : (L.set k x).getD i [] = L.getD i [] := by
  simp only [List.getD_eq_getElem?_getD]
  rw [List.getElem?_set_ne (by omega)]

/-! ### C1 — `check_link` when every attempt is a transport error -/

/-- C1: the claim states that when all 3 GET attempts fail with transport
errors, `check_link` returns `Invalid("Max retries exceeded")`.  It does
not: the loop returns `Invalid("Request error: …")` from inside the last
iteration, so at the concrete run where every attempt fails with
`connection refused` the result differs from the claimed value. -/
theorem checkLink_counterexample :
    (checkLink (fun _ => none) false (.Invalid "") "https://example.com"
        (fun _ => .transportError "connection refused")).1
      = .Invalid "Request error: connection refused" ∧
    (checkLink (fun _ => none) false (.Invalid "") "https://example.com"
        (fun _ => .transportError "connection refused")).1
      ≠ .Invalid "Max retries exceeded" := by
  constructor
  · rfl
  · intro h
    exact absurd h (by decide)

/-- C1 (amended): if the three GET attempts of `check_link` all fail with
transport errors `e0`, `e1`, `e2`, the function sleeps one second after
each of the first two errors, retries, and returns
`Invalid("Request error: e2")` from the last attempt; the prescribed
`Invalid("Max retries exceeded")` return after the loop is unreachable. -/
theorem checkLink_all_transport_errors (parse : String → Option UrlParts)
    (isGh : Bool) (gh404 : LinkCheckResult) (url : String)
    (net : Nat → AttemptOutcome) (e0 e1 e2 : String)
    (h0 : net 0 = .transportError e0) (h1 : net 1 = .transportError e1)
    (h2 : net 2 = .transportError e2) :
    checkLink parse isGh gh404 url net = (.Invalid ("Request error: " ++ e2), 2) := by
  unfold checkLink
  simp [checkLinkLoop, h0, h1, h2]

theorem checkLink_all_transport_errors_witness :
    checkLink (fun _ => none) false (.Invalid "") "https://example.com"
        (fun _ => .transportError "boom")
      = (.Invalid ("Request error: " ++ "boom"), 2) :=
  checkLink_all_transport_errors (fun _ => none) false (.Invalid "")
    "https://example.com" (fun _ => .transportError "boom") "boom" "boom" "boom"
    rfl rfl rfl

/-! ### C2 — `replace_line_content` and multiple occurrences -/

/-- C2: the claim states that when `old_substring` occurs more than once on
the target line, only the first occurrence is replaced.  On the line
`ab ab` with `old = "ab"`, `new = "cd"`, the code produces `cd cd` (every
occurrence replaced), not the claimed `cd ab`. -/
theorem replaceLineContent_counterexample :
    replaceLineContent "ab ab".toList 1 "ab".toList "cd".toList
      = .ok "cd cd".toList ∧
    (Except.ok "cd cd".toList : Except PrError (List Char))
      ≠ .ok "cd ab".toList := by
  decide

/-- C2 (amended): `replace_line_content` replaces **every** non-overlapping
occurrence of `old_substring` on the target line, leftmost first, with
`new_substring`; the replacement is literal.  The target line is presented
as segments of non-occurrence text around the occurrences of `old`:
`rustJoin old (seg0 :: init ++ [last])`.  The result replaces every
occurrence: the line becomes `rustJoin rep (seg0 :: init ++ [last])`. -/
theorem replaceLineContent_replaces_every_occurrence
    (content old rep seg0 last : List Char) (init : List (List Char)) (n : Nat)
    (hold : old ≠ [])
    (hn : 1 ≤ n) (hlen : n ≤ (rustLines content).length)
    (hline : (rustLines content).getD (n - 1) [] = rustJoin old (seg0 :: init ++ [last]))
    (hseg0 : GoodSeg old seg0)
    (hinit : ∀ seg ∈ init, GoodSeg old seg)
    (hlast : rustContains last old = false) :
    replaceLineContent content n old rep =
      .ok (joinLines ((rustLines content).set (n - 1)
        (rustJoin rep (seg0 :: init ++ [last])))) := by
  have hocc : rustContains ((rustLines content).getD (n - 1) []) old = true := by
    rw [hline]
    show rustContains (rustJoin old (seg0 :: (init ++ [last]))) old = true
    rw [rustJoin_cons old seg0 (init ++ [last]) (by simp)]
    apply rustContains_of_prefix_drop seg0.length
    · simp only [List.append_assoc, List.length_append]
      omega
    · have hdrop : (seg0 ++ old ++ rustJoin old (init ++ [last])).drop seg0.length
          = old ++ rustJoin old (init ++ [last]) := by
        rw [List.append_assoc]
        exact List.drop_left _ _
      rw [hdrop]
      exact isPrefixOf_iff.mpr (List.prefix_append _ _)
  rw [replaceLineContent_eq content old rep n
    (by intro hc; rcases hc with hc | hc <;> omega) hocc, hline]
  rw [rustReplace_join old rep last hold hlast (seg0 :: init) (by
    intro seg hseg
    rcases List.mem_cons.mp hseg with hseg | hseg
    · rw [hseg]; exact hseg0
    · exact hinit seg hseg)]

theorem replaceLineContent_replaces_every_occurrence_witness :
    replaceLineContent "ab ab".toList 1 "ab".toList "cd".toList =
      .ok (joinLines ((rustLines "ab ab".toList).set 0
        (rustJoin "cd".toList ([] :: [" ".toList] ++ [[]])))) :=
  replaceLineContent_replaces_every_occurrence "ab ab".toList "ab".toList
    "cd".toList [] [] [" ".toList] 1
    (by decide) (by decide) (by decide) (by decide) (by decide) (by decide) (by decide)

/-! ### C8 — `replace_line_content` frame behaviour -/

/-- C8: the claim states the output is byte-identical to the input outside
the edited line, including line terminators and any trailing newline.  The
code rebuilds the file with `lines()` + `join("\n")`, which drops a
trailing newline: editing line 1 of `"x\ny\n"` yields `"z\ny"`, not the
claimed `"z\ny\n"`. -/
theorem replaceLineContent_frame_counterexample :
    replaceLineContent "x\ny\n".toList 1 "x".toList "z".toList
      = .ok "z\ny".toList ∧
    "z\ny".toList ≠ "z\ny\n".toList := by
  decide

/-- C8 (amended): for a valid edit, the output is the input's `lines()`
decomposition with only entry `line_number - 1` replaced, re-joined with
`'\n'`; every other entry of the decomposition is unchanged.  The original
terminators are not preserved: a trailing newline is dropped and `"\r\n"`
becomes `"\n"`. -/
theorem replaceLineContent_line_local (content old rep : List Char) (n : Nat)
    (hn : 1 ≤ n) (hlen : n ≤ (rustLines content).length)
    (hocc : rustContains ((rustLines content).getD (n - 1) []) old = true) :
    replaceLineContent content n old rep =
      .ok (joinLines ((rustLines content).set (n - 1)
        (rustReplace ((rustLines content).getD (n - 1) []) old rep))) ∧
    ∀ i, i ≠ n - 1 →
      ((rustLines content).set (n - 1)
          (rustReplace ((rustLines content).getD (n - 1) []) old rep)).getD i []
        = (rustLines content).getD i [] := by
  refine ⟨replaceLineContent_eq content old rep n
    (by intro hc; rcases hc with hc | hc <;> omega) hocc, ?_⟩
  intro i hi
  exact getD_set_ne _ _ _ _ hi

theorem replaceLineContent_line_local_witness :
    (replaceLineContent "x\ny\n".toList 1 "x".toList "z".toList =
      .ok (joinLines ((rustLines "x\ny\n".toList).set 0
        (rustReplace ((rustLines "x\ny\n".toList).getD 0 []) "x".toList "z".toList))) ∧
    ∀ i, i ≠ 0 →
      ((rustLines "x\ny\n".toList).set 0
          (rustReplace ((rustLines "x\ny\n".toList).getD 0 []) "x".toList "z".toList)).getD i []
        = (rustLines "x\ny\n".toList).getD i []) :=
  replaceLineContent_line_local "x\ny\n".toList "x".toList "z".toList 1
    (by decide) (by decide) (by decide)

/-! ### C4 — `is_trivial_redirect` -/

theorem dropWhile_head_false (p : Char → Bool) :
    ∀ (l : List Char) c t, l.dropWhile p = c :: t → p c = false := by
  intro l
  induction l with
  | nil => intro c t h; cases h
  | cons a rest ih =>
    intro c t h
    rw [List.dropWhile_cons] at h
    by_cases ha : p a
    · rw [if_pos ha] at h
      exact ih c t h
    · rw [if_neg ha] at h
      cases h
      exact Bool.eq_false_iff.mpr ha

theorem dropWhile_replicate_append (p : Char → Bool) (c : Char) (hc : p c = true) :
    ∀ (k : Nat) (l : List Char),
      (List.replicate k c ++ l).dropWhile p = l.dropWhile p := by
  intro k
  induction k with
  | zero => intro l; rfl
  | succ k ih =>
    intro l
    rw [List.replicate_succ, List.cons_append, List.dropWhile_cons, if_pos hc]
    exact ih l

theorem trimEndSlashes_spec (s : List Char) :
    ∃ k, s = trimEndSlashes s ++ List.replicate k '/' ∧
      (trimEndSlashes s).getLast? ≠ some '/' := by
  refine ⟨(s.reverse.takeWhile (fun c => c = '/')).length, ?_, ?_⟩
  · have htake : s.reverse.takeWhile (fun c => c = '/')
        = List.replicate (s.reverse.takeWhile (fun c => c = '/')).length '/' := by
      apply List.eq_replicate_of_mem
      intro b hb
      have := List.mem_takeWhile_imp hb
      simpa using this
    have h2 : (s.reverse.takeWhile (fun c => c = '/')).reverse
        = List.replicate (s.reverse.takeWhile (fun c => c = '/')).length '/' := by
      nth_rewrite 1 [htake]
      rw [List.reverse_replicate]
    conv_lhs => rw [← s.reverse_reverse,
      ← List.takeWhile_append_dropWhile (fun c => c = '/') s.reverse]
    rw [List.reverse_append, h2]
    rfl
  · unfold trimEndSlashes
    rw [List.getLast?_reverse]
    cases hdr : s.reverse.dropWhile (fun c => c = '/') with
    | nil => simp
    | cons c t =>
      have hc := dropWhile_head_false _ _ _ _ hdr
      simp only [List.head?_cons]
      intro hcontra
      rw [Option.some_inj.mp hcontra] at hc
      simp at hc

theorem trimEndSlashes_append_replicate (base : List Char) (k : Nat)
    (h : base.getLast? ≠ some '/') :
    trimEndSlashes (base ++ List.replicate k '/') = base := by
  unfold trimEndSlashes
  rw [List.reverse_append, List.reverse_replicate,
    dropWhile_replicate_append _ '/' (by simp) k base.reverse]
  have hrev : base.reverse.dropWhile (fun c => c = '/') = base.reverse := by
    cases hb : base.reverse with
    | nil => rfl
    | cons c t =>
      rw [List.dropWhile_cons, if_neg]
      intro hcontra
      apply h
      rw [← List.head?_reverse, hb, List.head?_cons]
      simpa using hcontra
  rw [hrev, List.reverse_reverse]

/-- C4: the claim states `is_trivial_redirect` is true iff scheme, host,
port and query agree and the paths differ by exactly one trailing slash,
and in particular that paths differing by more than one trailing slash are
not trivial.  The code trims **all** trailing slashes from the original
path: with equal components, original path `/x///` and redirect path `/x`
(three slashes apart) is reported trivial. -/
theorem isTrivialRedirect_counterexample :
    isTrivialRedirect
        (some ⟨"https", some "h", none, "/x///".toList, none⟩)
        (some ⟨"https", some "h", none, "/x".toList, none⟩) = true ∧
    "/x".toList ≠ "/x///".toList ++ ['/'] ∧
    "/x///".toList ≠ "/x".toList ++ ['/'] := by
  decide

/-- C4 (amended): `is_trivial_redirect` is true iff both URLs parse, their
scheme, host, port and query are equal, and the redirect path equals the
original path with **all** trailing slashes removed, optionally followed by
one `'/'` — equivalently, the original path is `base ++ "/"*k` for a `base`
not ending in `'/'` and the redirect path is `base` or `base ++ "/"`. -/
theorem isTrivialRedirect_iff (o r : UrlParts) :
    isTrivialRedirect (some o) (some r) = true ↔
      o.scheme = r.scheme ∧ o.host = r.host ∧ o.port = r.port ∧ o.query = r.query ∧
      ∃ base k, base.getLast? ≠ some '/' ∧
        o.path = base ++ List.replicate k '/' ∧
        (r.path = base ++ ['/'] ∨ r.path = base) := by
  have hdef : isTrivialRedirect (some o) (some r) =
      (if o.scheme ≠ r.scheme ∨ o.host ≠ r.host ∨ o.port ≠ r.port then false
       else if o.query ≠ r.query then false
       else decide (r.path = trimEndSlashes o.path ++ ['/'])
         || decide (r.path = trimEndSlashes o.path)) := rfl
  rw [hdef]
  constructor
  · intro h
    by_cases h1 : o.scheme ≠ r.scheme ∨ o.host ≠ r.host ∨ o.port ≠ r.port
    · rw [if_pos h1] at h
      cases h
    · rw [if_neg h1] at h
      by_cases h2 : o.query ≠ r.query
      · rw [if_pos h2] at h
        cases h
      · rw [if_neg h2] at h
        push_neg at h1 h2
        obtain ⟨k, hk, hl⟩ := trimEndSlashes_spec o.path
        refine ⟨h1.1, h1.2.1, h1.2.2, h2, trimEndSlashes o.path, k, hl, hk, ?_⟩
        rcases (Bool.or_eq_true _ _).mp h with hcase | hcase
        · exact Or.inl (of_decide_eq_true hcase)
        · exact Or.inr (of_decide_eq_true hcase)
  · rintro ⟨hs, hh, hp, hq, base, k, hbl, hop, hr⟩
    rw [if_neg (by push_neg; exact ⟨hs, hh, hp⟩), if_neg (by simpa using hq)]
    have hbase : trimEndSlashes o.path = base := by
      rw [hop]
      exact trimEndSlashes_append_replicate base k hbl
    rcases hr with hr | hr <;> simp [hbase, hr]

/-! ### C7 — `create_fix_pr` with no applicable edits -/

theorem applyFixes_all_missing (fs : Workspace) :
    ∀ fixes : List FileChange, (∀ fix ∈ fixes, fs fix.filePath = none) →
      applyFixes fs fixes = ([], .ok ([], fs)) := by
  intro fixes
  induction fixes with
  | nil => intro _; rfl
  | cons fix rest ih =>
    intro h
    have hfix : fs fix.filePath = none := h fix (by simp)
    show applyFixes fs (fix :: rest) = ([], .ok ([], fs))
    unfold applyFixes
    rw [hfix]
    exact ih (fun f hf => h f (by simp [hf]))

/-- C7: when no edit is successfully applied — the fix list is empty or
every fix names a file absent from the workspace — `create_fix_pr` fails
with the `No changes to create PR` configuration error, and its effect
trace contains no commit, no push and no pull-request API call (only the
branch creation and checkout that precede `apply_fixes`). -/
theorem createFixPr_no_changes (fs : Workspace) (fixes : List FileChange)
    (branchName prUrl : String)
    (h : ∀ fix ∈ fixes, fs fix.filePath = none) :
    (createFixPr fs fixes branchName prUrl).2
        = .error (.config "No changes to create PR".toList) ∧
    (createFixPr fs fixes branchName prUrl).1
        = [.createBranch branchName, .checkoutBranch branchName] ∧
    ∀ e ∈ (createFixPr fs fixes branchName prUrl).1,
      isCommitEffect e = false ∧ isPushEffect e = false ∧ isOpenPrEffect e = false := by
  have happly := applyFixes_all_missing fs fixes h
  unfold createFixPr
  rw [happly]
  refine ⟨rfl, by simp, ?_⟩
  intro e he
  simp only [List.append_nil] at he
  rcases List.mem_cons.mp he with he | he
  · rw [he]
    exact ⟨rfl, rfl, rfl⟩
  · rcases List.mem_cons.mp he with he | he
    · rw [he]
      exact ⟨rfl, rfl, rfl⟩
    · cases he

theorem createFixPr_no_changes_witness :
    ((createFixPr (fun _ => none) [⟨"f.md".toList, "a".toList, "b".toList, 1⟩]
        "queensac-1" "https://github.com/o/r/pull/1").2
      = .error (.config "No changes to create PR".toList)) :=
  (createFixPr_no_changes (fun _ => none) [⟨"f.md".toList, "a".toList, "b".toList, 1⟩]
    "queensac-1" "https://github.com/o/r/pull/1" (fun _ _ => rfl)).1

/-! ### C9 — the `buffer_unordered(10)` bound -/

/-- C9: in every state reachable during an orchestration run of
`stream_link_checks`, at most 10 probes are in flight — the `start`
transition of the `buffer_unordered(10)` pool is enabled only while fewer
than 10 probes are in flight, so an 11th probe can start only after one of
the 10 finishes.  (`check_links` in `service.rs` awaits each probe in a
plain loop, so it keeps at most one in flight.) -/
theorem orchestration_probe_bound (links : List String) (s : OrchState)
    (h : OrchReachable links s) : s.inFlight.length ≤ probeBound := by
  induction h with
  | init => simp [orchInit, probeBound]
  | step _ hstep ih =>
    cases hstep with
    | start u pending inFlight finished hlt =>
      simpa using hlt
    | finish u pending pre post finished =>
      simp only [List.length_append, List.length_cons] at ih ⊢
      omega

theorem orchestration_probe_bound_witness :
    (orchInit ["https://example.com"]).inFlight.length ≤ probeBound :=
  orchestration_probe_bound ["https://example.com"] _ OrchReachable.init

/-! ### C10 — `handle_github_404` on repository-only URLs -/

/-- C10: the claim covers every URL whose host is `github.com` **or a
subdomain** with a repository-only path, and asserts the result is
`Invalid` with a message beginning `Error finding file location: `.  For a
subdomain host such as `gist.github.com`, `is_github_url` is true (so a 404
reaches `handle_github_404`), but `GitHubUrl::parse` only accepts
`github.com`/`www.github.com`, so the result is
`Invalid("Invalid GitHub URL format: …")` — an `Invalid` outcome, but not
the claimed message. -/
theorem handleGithub404_counterexample :
    isGithubUrl "https://gist.github.com/owner/repo".toList = true ∧
    handleGithub404 (.ok ⟨[], []⟩) 1 "https://gist.github.com/owner/repo".toList
      = some (.Invalid ("Invalid GitHub URL format: "
          ++ "https://gist.github.com/owner/repo")) ∧
    ¬ ("Error finding file location: ".toList.isPrefixOf
        ("Invalid GitHub URL format: " ++ "https://gist.github.com/owner/repo").toList) := by
  decide

/-- C10 (amended): for every URL that `GitHubUrl::parse` accepts (host
`github.com` or `www.github.com`) whose path names only a repository (no
file path), a 404 never yields a `GitHubFileMoved` outcome: when the clone
succeeds the result is
`Invalid("Error finding file location: No file path in URL")` (the
resolution step fails immediately), and when the clone fails it is
`Invalid("Error cloning repository: …")`; URLs `GitHubUrl::parse` rejects
give `Invalid("Invalid GitHub URL format: …")`. -/
theorem handleGithub404_repo_only (url : List Char) (g : GitHubUrl)
    (hparse : githubUrlParse url = some g) (hfp : g.filePath = none) :
    (∀ (m : RepoModel) (fuel : Nat), handleGithub404 (.ok m) fuel url
        = some (.Invalid "Error finding file location: No file path in URL")) ∧
    (∀ (e : String) (fuel : Nat), handleGithub404 (.error e) fuel url
        = some (.Invalid ("Error cloning repository: " ++ e))) ∧
    (∀ (clone : Except String RepoModel) (fuel : Nat) (p : String),
        handleGithub404 clone fuel url ≠ some (.GitHubFileMoved p)) := by
  refine ⟨?_, ?_, ?_⟩
  · intro m fuel
    simp [handleGithub404, hparse, findCurrentLocationE, hfp]
  · intro e fuel
    simp [handleGithub404, hparse]
  · intro clone fuel p
    cases clone with
    | error e => simp [handleGithub404, hparse]
    | ok m => simp [handleGithub404, hparse, findCurrentLocationE, hfp]

theorem handleGithub404_repo_only_witness :
    handleGithub404 (.ok ⟨[], []⟩) 1 "https://github.com/owner/repo".toList
      = some (.Invalid "Error finding file location: No file path in URL") :=
  (handleGithub404_repo_only "https://github.com/owner/repo".toList
    ⟨"owner", "repo", none, none⟩ (by decide) rfl).1 ⟨[], []⟩ 1

/-! ### C5 — extraction trimming -/

/-- C5: the claim states that a URL match followed by one of `) > . , ;`
is extracted exactly, the trim touching only characters after the match.
The trim is applied to the match itself: on the line
`https://en.wikipedia.org/wiki/Paris_(city),` the pattern matches
`https://en.wikipedia.org/wiki/Paris_(city)` (followed by `,`), and the
extraction strips the `)` that belongs to the URL, yielding
`https://en.wikipedia.org/wiki/Paris_(city`. -/
theorem extractUrl_counterexample :
    urlMatches "https://en.wikipedia.org/wiki/Paris_(city),".toList
      = ["https://en.wikipedia.org/wiki/Paris_(city)".toList] ∧
    "https://en.wikipedia.org/wiki/Paris_(city),".toList
      = "https://en.wikipedia.org/wiki/Paris_(city)".toList ++ [','] ∧
    extractUrl "https://en.wikipedia.org/wiki/Paris_(city)".toList
      = "https://en.wikipedia.org/wiki/Paris_(city".toList ∧
    extractUrl "https://en.wikipedia.org/wiki/Paris_(city)".toList
      ≠ "https://en.wikipedia.org/wiki/Paris_(city)".toList := by
  decide

/-- C5 (amended): the extraction trims the maximal run of trailing
`) > . , ;` characters from the **match itself** (characters after the
match are never part of it); in particular a match whose final character is
not one of these five — which includes every match followed by `>`, `,` or
`;` whose own tail is clean — is extracted exactly. -/
theorem extractUrl_of_clean_tail (mat : List Char)
    (h : ∀ c ∈ trimChars, mat.getLast? ≠ some c) :
    extractUrl mat = mat := by
  unfold extractUrl rustTrimEndMatches
  cases hm : mat.reverse with
  | nil =>
    have hmat : mat = [] := by
      have := congrArg List.reverse hm
      simpa using this
    rw [hmat]
    rfl
  | cons c t =>
    have hc : mat.getLast? = some c := by
      rw [← List.head?_reverse, hm]
      rfl
    have hcn : trimChars.contains c = false := by
      cases hb : trimChars.contains c with
      | false => rfl
      | true =>
        exact absurd hc (h c (List.mem_of_elem_eq_true hb))
    rw [List.dropWhile_cons, if_neg (by rw [hcn]; simp), ← hm, mat.reverse_reverse]

theorem extractUrl_of_clean_tail_witness :
    extractUrl "https://doc.rust-lang.org/std".toList
      = "https://doc.rust-lang.org/std".toList :=
  extractUrl_of_clean_tail "https://doc.rust-lang.org/std".toList (by decide)

/-! ### C6 — `find_last_commit_id` delta resolution -/

theorem findLastCommitId_cons (target : GitPath) (c : GitCommit) (rest : List GitCommit) :
    findLastCommitId target (c :: rest)
      = match commitHits target c with
        | some r => .ok (c, r)
        | none => findLastCommitId target rest := rfl

theorem findLastCommitId_skip (target : GitPath) :
    ∀ (pre rest : List GitCommit), (∀ c ∈ pre, commitHits target c = none) →
      findLastCommitId target (pre ++ rest) = findLastCommitId target rest := by
  intro pre
  induction pre with
  | nil => intro rest _; rfl
  | cons c pre ih =>
    intro rest h
    show findLastCommitId target (c :: (pre ++ rest)) = findLastCommitId target rest
    rw [findLastCommitId_cons, h c (by simp)]
    exact ih rest (fun c2 h2 => h c2 (by simp [h2]))

theorem scanDeltas_cons (target : GitPath) (d : Delta) (ds : List Delta) :
    scanDeltas target (d :: ds)
      = if d.newPath = target then some none
        else if target.isPrefixOf d.oldPath then
          (if d.oldPath = target ∧ d.status = .renamed then
            some (some (renderPath d.newPath))
           else if d.status = .renamed ∧ d.newPath ≠ [] then
            some (some (renderDir d.newPath))
           else some none)
        else scanDeltas target ds := rfl

theorem scanDeltas_skip (target : GitPath) :
    ∀ (dpre ds : List Delta),
      (∀ d ∈ dpre, d.newPath ≠ target ∧ ¬ target.isPrefixOf d.oldPath) →
      scanDeltas target (dpre ++ ds) = scanDeltas target ds := by
  intro dpre
  induction dpre with
  | nil => intro ds _; rfl
  | cons d dpre ih =>
    intro ds h
    obtain ⟨hnew, hold⟩ := h d (by simp)
    show scanDeltas target (d :: (dpre ++ ds)) = scanDeltas target ds
    rw [scanDeltas_cons, if_neg hnew, if_neg hold]
    exact ih ds (fun d2 h2 => h d2 (by simp [h2]))

theorem scanDeltas_cons_of_single (target : GitPath) (d : Delta) (r : Option String)
    (h : scanDeltas target [d] = some r) :
    ∀ ds, scanDeltas target (d :: ds) = some r := by
  intro ds
  rw [scanDeltas_cons] at h ⊢
  by_cases h1 : d.newPath = target
  · rw [if_pos h1] at h ⊢
    exact h
  · rw [if_neg h1] at h ⊢
    by_cases h2 : target.isPrefixOf d.oldPath
    · rw [if_pos h2] at h ⊢
      exact h
    · rw [if_neg h2] at h
      cases h

/-- C6: the claim's tie-break states that when several deltas of the same
commit match, an exact `old_path == queried` file rename wins over
directory-parent inference.  The code returns at the **first** matching
delta in diff order: with deltas
`[a/b → c/d (Renamed), a → e (Renamed)]` and query `a`, it returns the
directory inference `c/` from the first delta, not the exact rename target
`e`. -/
theorem findLastCommitId_counterexample :
    findLastCommitId ["a"]
        [⟨1, [⟨["a", "b"], ["c", "d"], .renamed⟩, ⟨["a"], ["e"], .renamed⟩]⟩]
      = .ok (⟨1, [⟨["a", "b"], ["c", "d"], .renamed⟩, ⟨["a"], ["e"], .renamed⟩]⟩,
          some "c/") ∧
    (some "c/" : Option String) ≠ some "e" := by
  decide

/-- C6 (amended): `find_last_commit_id` walks the commits from HEAD,
skipping commits whose parent count is not 1; the first single-parent
commit with a matching delta decides the result, and within that commit the
**first matching delta in diff order** decides `renamed_path` (new path
equal to the queried path ⇒ `None`; old path equal to the queried path with
status Renamed ⇒ that delta's new path; queried path a strict directory
prefix of a renamed delta's old path ⇒ parent directory of the new path
with a trailing `/`); there is no priority of exact file renames over
directory-parent inference across deltas. -/
theorem findLastCommitId_first_delta_wins
    (pre post : List GitCommit) (c : GitCommit) (target : GitPath)
    (dpre dpost : List Delta) (d : Delta) (r : Option String)
    (hpre : ∀ c2 ∈ pre, commitHits target c2 = none)
    (hpc : c.parentCount = 1)
    (hds : c.deltas = dpre ++ d :: dpost)
    (hdpre : ∀ d2 ∈ dpre, d2.newPath ≠ target ∧ ¬ target.isPrefixOf d2.oldPath)
    (hd : scanDeltas target [d] = some r) :
    findLastCommitId target (pre ++ c :: post) = .ok (c, r) := by
  rw [findLastCommitId_skip target pre (c :: post) hpre]
  have hhits : commitHits target c = some r := by
    unfold commitHits
    rw [if_pos hpc, hds, scanDeltas_skip target dpre (d :: dpost) hdpre,
      scanDeltas_cons_of_single target d r hd dpost]
  show findLastCommitId target (c :: post) = .ok (c, r)
  rw [findLastCommitId_cons, hhits]

theorem findLastCommitId_first_delta_wins_witness :
    findLastCommitId ["a"] ([] ++ ⟨1, [⟨["a"], ["b"], .renamed⟩]⟩ :: [])
      = .ok (⟨1, [⟨["a"], ["b"], .renamed⟩]⟩, some "b") :=
  findLastCommitId_first_delta_wins [] [] ⟨1, [⟨["a"], ["b"], .renamed⟩]⟩ ["a"]
    [] [] ⟨["a"], ["b"], .renamed⟩ (some "b")
    (by intro c2 h2; cases h2) rfl rfl (by intro d2 h2; cases h2) (by decide)

/-! ### C3 — termination of the 404 resolution loop -/

theorem findLastCommitIdRook_cons (p : GitPath) (c : GitCommit) (rest : List GitCommit) :
    findLastCommitIdRook p (c :: rest)
      = if rookCommitHits p c then .ok c else findLastCommitIdRook p rest := rfl

theorem rookHitSuffix_cons (p : GitPath) (c : GitCommit) (rest : List GitCommit) :
    rookHitSuffix p (c :: rest)
      = if rookCommitHits p c then some (c :: rest) else rookHitSuffix p rest := rfl

theorem rookHitSuffix_none_elim (p : GitPath) :
    ∀ cs, rookHitSuffix p cs = none →
      findLastCommitIdRook p cs = .error "File not found" := by
  intro cs
  induction cs with
  | nil => intro _; rfl
  | cons c rest ih =>
    intro h
    rw [rookHitSuffix_cons] at h
    rw [findLastCommitIdRook_cons]
    by_cases hc : rookCommitHits p c
    · rw [if_pos hc] at h
      cases h
    · rw [if_neg hc] at h
      rw [if_neg hc]
      exact ih h

theorem rookHitSuffix_some_elim (p : GitPath) :
    ∀ cs s, rookHitSuffix p cs = some s →
      ∃ c rest, s = c :: rest ∧ findLastCommitIdRook p cs = .ok c ∧
        rookCommitHits p c = true ∧ s <:+ cs := by
  intro cs
  induction cs with
  | nil => intro s h; cases h
  | cons a cs ih =>
    intro s h
    rw [rookHitSuffix_cons] at h
    by_cases ha : rookCommitHits p a
    · rw [if_pos ha] at h
      obtain rfl : s = a :: cs := (Option.some_inj.mp h).symm
      exact ⟨a, cs, rfl, by rw [findLastCommitIdRook_cons, if_pos ha], ha,
        List.suffix_refl _⟩
    · rw [if_neg ha] at h
      obtain ⟨c, r2, hs, hfind, hhit, hsuf⟩ := ih s h
      exact ⟨c, r2, hs, by rw [findLastCommitIdRook_cons, if_neg ha]; exact hfind, hhit,
        hsuf.trans (List.suffix_cons a cs)⟩

theorem rookHitSuffix_of_hit (q : GitPath) :
    ∀ (cs rest : List GitCommit) (c : GitCommit),
      (c :: rest) <:+ cs → rookCommitHits q c = true →
      ∃ s2, rookHitSuffix q cs = some s2 ∧ (c :: rest).length ≤ s2.length := by
  intro cs
  induction cs with
  | nil =>
    intro rest c hsuf _
    cases List.suffix_nil.mp hsuf
  | cons a cs ih =>
    intro rest c hsuf hhit
    rw [rookHitSuffix_cons]
    by_cases ha : rookCommitHits q a
    · rw [if_pos ha]
      exact ⟨a :: cs, rfl, hsuf.length_le⟩
    · rw [if_neg ha]
      rcases List.suffix_cons_iff.mp hsuf with heq | hsuf2
      · exfalso
        have hca : c = a := by
          injection heq with h1 _
        rw [hca] at hhit
        exact absurd hhit (by simpa using ha)
      · exact ih rest c hsuf2 hhit

theorem suffix_eq_of_length_eq {s1 s2 l : List GitCommit}
    (h1 : s1 <:+ l) (h2 : s2 <:+ l) (hl : s1.length = s2.length) : s1 = s2 := by
  obtain ⟨t1, ht1⟩ := h1
  obtain ⟨t2, ht2⟩ := h2
  have hd1 : l.drop t1.length = s1 := by
    rw [← ht1]
    exact List.drop_left t1 s1
  have hd2 : l.drop t2.length = s2 := by
    rw [← ht2]
    exact List.drop_left t2 s2
  have hlen : t1.length = t2.length := by
    have e1 := congrArg List.length ht1
    have e2 := congrArg List.length ht2
    simp only [List.length_append] at e1 e2
    omega
  rw [← hd1, ← hd2, hlen]

theorem trackFileRename_some_elim (c : GitCommit) (p np : GitPath)
    (h : trackFileRenameInCommit c p = some np) :
    c.parentCount = 1 ∧
      ∃ d ∈ c.deltas, d.status = .renamed ∧ d.oldPath = p ∧ d.newPath = np := by
  unfold trackFileRenameInCommit at h
  by_cases hpc : c.parentCount ≠ 1
  · rw [if_pos hpc] at h
    cases h
  · rw [if_neg hpc] at h
    rcases Option.map_eq_some'.mp h with ⟨d, hfind, hnp⟩
    have hmem := List.mem_of_find?_eq_some hfind
    have hpred := List.find?_some hfind
    have hprops := of_decide_eq_true hpred
    exact ⟨not_not.mp hpc, d, hmem, hprops.1, hprops.2, hnp⟩

theorem trackFileRename_none_of_consistent (m : RepoModel) (hcon : GitConsistent m)
    (c : GitCommit) (hc : c ∈ m.commits) (np : GitPath)
    (hd : ∃ d ∈ c.deltas, d.status = .renamed ∧ d.newPath = np) :
    trackFileRenameInCommit c np = none := by
  obtain ⟨d, hdmem, hdren, hdnew⟩ := hd
  unfold trackFileRenameInCommit
  by_cases hpc : c.parentCount ≠ 1
  · rw [if_pos hpc]
  · rw [if_neg hpc]
    have hnone : c.deltas.find?
        (fun d2 => decide (d2.status = .renamed ∧ d2.oldPath = np)) = none := by
      rw [List.find?_eq_none]
      intro d2 hd2 hpred
      have hprops := of_decide_eq_true hpred
      exact (hcon c hc d hdmem d2 hd2 hdren hprops.1) (by rw [hdnew, hprops.2])
    rw [hnone]
    rfl

theorem rookCommitHits_of_delta (c : GitCommit) (np : GitPath)
    (hpc : c.parentCount = 1) (hd : ∃ d ∈ c.deltas, d.newPath = np) :
    rookCommitHits np c = true := by
  unfold rookCommitHits
  obtain ⟨d, hdmem, hdnew⟩ := hd
  rw [Bool.and_eq_true]
  constructor
  · simp [hpc]
  · rw [List.any_eq_true]
    exact ⟨d, hdmem, by simpa using hdnew⟩

theorem findCurrentLocationLoop_succ_eq (m : RepoModel) (f : Nat) (p : GitPath) :
    findCurrentLocationLoop m (f + 1) p
      = if fileExistsInRepo m p then some (some p)
        else
          match findLastCommitIdRook p m.commits with
          | .error _ => some none
          | .ok c =>
            match trackFileRenameInCommit c p with
            | some np => findCurrentLocationLoop m f np
            | none => some none := rfl

theorem findCurrentLocationLoop_isSome (m : RepoModel) (hcon : GitConsistent m) :
    ∀ n p fuel, m.commits.length - rookHitMeasure m p ≤ n → 2 + n ≤ fuel →
      (findCurrentLocationLoop m fuel p).isSome = true := by
  intro n
  induction n using Nat.strong_induction_on with
  | _ n ih =>
    intro p fuel hn hf
    obtain ⟨f, rfl⟩ : ∃ f, fuel = f + 1 := ⟨fuel - 1, by omega⟩
    rw [findCurrentLocationLoop_succ_eq]
    by_cases hex : fileExistsInRepo m p
    · rw [if_pos hex]
      rfl
    · rw [if_neg hex]
      cases hsx : rookHitSuffix p m.commits with
      | none =>
        rw [rookHitSuffix_none_elim p m.commits hsx]
        rfl
      | some s =>
        obtain ⟨c, rest, rfl, hfind, hhit, hsuf⟩ := rookHitSuffix_some_elim p m.commits s hsx
        rw [hfind]
        show (match trackFileRenameInCommit c p with
          | some np => findCurrentLocationLoop m f np
          | none => some none).isSome = true
        cases htr : trackFileRenameInCommit c p with
        | none => rfl
        | some np =>
          show (findCurrentLocationLoop m f np).isSome = true
          obtain ⟨hpc, d, hdmem, hdren, hdold, hdnew⟩ := trackFileRename_some_elim c p np htr
          have hhitnp : rookCommitHits np c = true :=
            rookCommitHits_of_delta c np hpc ⟨d, hdmem, hdnew⟩
          obtain ⟨s2, hsx2, hlen⟩ := rookHitSuffix_of_hit np m.commits rest c hsuf hhitnp
          obtain ⟨c2, rest2, hs2eq, hfind2, hhit2, hsuf2⟩ :=
            rookHitSuffix_some_elim np m.commits s2 hsx2
          have hμp : rookHitMeasure m p = (c :: rest).length := by
            unfold rookHitMeasure
            rw [hsx]
          have hμnp : rookHitMeasure m np = s2.length := by
            unfold rookHitMeasure
            rw [hsx2]
          have hslen : (c :: rest).length ≤ m.commits.length := hsuf.length_le
          have hs2len : s2.length ≤ m.commits.length := hsuf2.length_le
          by_cases hstrict : (c :: rest).length < s2.length
          · exact ih (m.commits.length - s2.length) (by omega) np f
              (by rw [hμnp]) (by omega)
          · have hlen2 : s2.length = (c :: rest).length := by omega
            have hs2 : s2 = c :: rest := suffix_eq_of_length_eq hsuf2 hsuf hlen2
            have hc2 : c2 = c := by
              rw [hs2] at hs2eq
              injection hs2eq with h1 _
              exact h1.symm
            obtain ⟨f2, rfl⟩ : ∃ f2, f = f2 + 1 := ⟨f - 1, by omega⟩
            rw [findCurrentLocationLoop_succ_eq]
            by_cases hexnp : fileExistsInRepo m np
            · rw [if_pos hexnp]
              rfl
            · rw [if_neg hexnp]
              rw [hfind2]
              show (match trackFileRenameInCommit c2 np with
                | some np2 => findCurrentLocationLoop m f2 np2
                | none => some none).isSome = true
              have hmemc : c ∈ m.commits := hsuf.subset (by simp)
              have htrnone : trackFileRenameInCommit c2 np = none := by
                rw [hc2]
                exact trackFileRename_none_of_consistent m hcon c hmemc np ⟨d, hdmem, hdren, hdnew⟩
              rw [htrnone]
              rfl

/-- C3: on every repository model satisfying the tree-diff consistency
invariant (a renamed delta's new path is never a renamed delta's old path
within the same commit — true of every real git diff), the 404 resolution
loop of `find_current_location` terminates for every input within
`commit count + 2` iterations: the first commit touching the current path
moves strictly towards HEAD at each rename step, so the function always
returns `Ok(Some(path))`, `Ok(None)` or `Err`, and rename chains cannot
revisit a previously seen path. -/
theorem findCurrentLocation_terminates (m : RepoModel) (hcon : GitConsistent m)
    (g : GitHubUrl) :
    (findCurrentLocationE m g (m.commits.length + 2)).isSome = true := by
  unfold findCurrentLocationE
  cases hfp : g.filePath with
  | none => rfl
  | some fp =>
    rw [Option.isSome_map']
    exact findCurrentLocationLoop_isSome m hcon m.commits.length (pathComponents fp)
      (m.commits.length + 2) (by omega) (by omega)

theorem findCurrentLocation_terminates_witness :
    (findCurrentLocationE ⟨[⟨1, [⟨["a"], ["b"], DeltaStatus.renamed⟩]⟩], [["b"]]⟩
        ⟨"o", "r", some "main", some "a"⟩
        ((⟨[⟨1, [⟨["a"], ["b"], DeltaStatus.renamed⟩]⟩], [["b"]]⟩ : RepoModel).commits.length
          + 2)).isSome = true :=
  findCurrentLocation_terminates ⟨[⟨1, [⟨["a"], ["b"], DeltaStatus.renamed⟩]⟩], [["b"]]⟩
    (by decide) ⟨"o", "r", some "main", some "a"⟩

end Queensac
